import Mathlib

set_option maxRecDepth 10000

/-!
Shallow embedding of the ranked-pairs (Tideman) election tabulator from
`src/week3/tideman.rs` together with the comparator quicksort from
`src/week3/sort.rs`, and proofs about the embedded program.

Modelling conventions:
* `Vec<T>` becomes `List T`; in-place slice mutation becomes explicit
  list-returning functions (`List.set`, a `swapL` helper for `slice::swap`).
* `HashMap<String, usize>` becomes an association list whose observable
  behaviour (lookup, replacing insert that returns the old value) matches
  the hash map; `HashSet<usize>` for the DFS visited set becomes a
  `List Nat` used only through membership and insertion.
* `i32` weights become `Int` (no weight arithmetic in the program can
  overflow a mathematical integer model here, and no claim concerns
  wrap-around).
* The recursive DFS `has_cycles_dfs` terminates in Rust because the
  visited set grows on every nested call; the embedding makes the nesting
  depth explicit with a fuel argument set to `nodes.length + 1`, which the
  real call tree never exhausts (each nested level inserts a distinct node
  index below `nodes.length`).  Exhaustion returns `true` (the
  conservative answer) and is unreachable in the modelled runs.
* `get_winner` iterates a `HashSet` in unspecified order; the embedding
  takes the iteration order as an explicit parameter ranging over the
  permutations of the set of candidates without incoming edges.
-/

namespace CS50

/-- Errors which may happen in a tideman election (`enum TidemanError`). -/
inductive TidemanError where
  | CandidateNotFoundError (name : String)
  | CandidateAlreadyExistsError (name : String)
  | LockCreatedCycleError
deriving DecidableEq, Repr

/-- A node in a tideman graph (`struct TidemanNode`); the `Candidate`
payload is just its name string. -/
structure TidemanNode where
  candidate : String
  links : List Nat
deriving DecidableEq, Repr

instance : Inhabited TidemanNode := ⟨⟨"", []⟩⟩

/-- A pair of candidates facing each other (`struct TidemanPair`). -/
structure TidemanPair where
  winner_id : Nat
  loser_id : Nat
  weight : Int
deriving DecidableEq, Repr

instance : Inhabited TidemanPair := ⟨⟨0, 0, 0⟩⟩

/-- The full election state (`struct TidemanGraph`). -/
structure TGraph where
  nodes : List TidemanNode
  names_ids_map : List (String × Nat)
  votes : List (List Nat)
  pairs : List TidemanPair
deriving DecidableEq, Repr

instance : DecidableEq (Except TidemanError Nat) := fun a b =>
  match a, b with
  | Except.ok x, Except.ok y =>
    if h : x = y then isTrue (by rw [h]) else isFalse (by simp [h])
  | Except.ok _, Except.error _ => isFalse (by simp)
  | Except.error _, Except.ok _ => isFalse (by simp)
  | Except.error x, Except.error y =>
    if h : x = y then isTrue (by rw [h]) else isFalse (by simp [h])

/-- Rust `str::to_lowercase`, modelled character by character (the two agree on
the ASCII candidate names this program handles; `String.toLower` itself is
defined by position-based recursion that the kernel cannot evaluate). -/
def to_lowercase (s : String) : String := ⟨s.data.map Char.toLower⟩

/-- Lookup in the association list modelling the `HashMap`. -/
def mapLookup (m : List (String × Nat)) (k : String) : Option Nat :=
  (m.find? (fun e => e.1 == k)).map (fun e => e.2)

/-- Rust `HashMap::insert`: replaces the binding for `k`, returning the old
value when one existed. -/
def mapInsert (m : List (String × Nat)) (k : String) (v : Nat) :
    Option Nat × List (String × Nat) :=
  match mapLookup m k with
  | some old => (some old, m.map (fun e => if e.1 == k then (k, v) else e))
  | none => (none, m ++ [(k, v)])

/-- Rust `TidemanGraph::new`. -/
def newGraph : TGraph := ⟨[], [], [], []⟩

/-- Rust `TidemanGraph::contains`. -/
def contains (s : TGraph) (candidate : String) : Bool :=
  (mapLookup s.names_ids_map candidate).isSome

/-- Rust `TidemanGraph::get_candidate_id`: note that the argument is used as
the map key verbatim, without lowercasing. -/
def get_candidate_id (s : TGraph) (candidate : String) :
    Except TidemanError Nat :=
  if contains s candidate then
    Except.ok ((mapLookup s.names_ids_map candidate).getD 0)
  else
    Except.error (TidemanError.CandidateNotFoundError candidate)

/-- Rust `TidemanGraph::add_candidate`: inserts `name.to_lowercase()` mapped to
`self.nodes.len()` and only then inspects the old binding; on a duplicate
it reports an error without pushing a node (the map update stays). -/
def add_candidate (s : TGraph) (name : String) : TGraph × Option TidemanError :=
  let node : TidemanNode := ⟨name, []⟩
  match mapInsert s.names_ids_map (to_lowercase name) s.nodes.length with
  | (some _, m) => ({ s with names_ids_map := m },
      some (TidemanError.CandidateAlreadyExistsError name))
  | (none, m) => ({ s with names_ids_map := m, nodes := s.nodes ++ [node] }, none)

/-- Adjacency of node `a` (`self.nodes[a].links`; out of range gives `[]`,
which the guarded call sites never hit). -/
def linksOf (g : List TidemanNode) (a : Nat) : List Nat :=
  (g.getD a default).links

/-- Rust `TidemanNode::link` applied to node `w`: push `l` onto its links. -/
def pushLink (g : List TidemanNode) (w l : Nat) : List TidemanNode :=
  g.set w ⟨(g.getD w default).candidate, (g.getD w default).links ++ [l]⟩

/-- Rust `links.pop()` applied to node `w`. -/
def popLink (g : List TidemanNode) (w : Nat) : List TidemanNode :=
  g.set w ⟨(g.getD w default).candidate, (g.getD w default).links.dropLast⟩

/-- Rust `TidemanGraph::has_cycles_dfs`: insert the node into the visited set,
report `true` if it was already present, otherwise traverse every link in
order; the `for` loop with its early `return true` becomes a fold that
carries the (found, visited) state and leaves it unchanged once a revisit
was found.  The fuel bounds the nesting depth (see the header note). -/
def has_cycles_dfs (g : List TidemanNode) :
    Nat → Nat → List Nat → Bool × List Nat
  | 0, _, visited => (true, visited)
  | fuel + 1, node, visited =>
    if node ∈ visited then (true, visited)
    else
      (linksOf g node).foldl
        (fun r link_id =>
          if r.1 then r else has_cycles_dfs g fuel link_id r.2)
        (false, node :: visited)

/-- Rust `TidemanGraph::has_cycles_from`: run the DFS from `node_id` with an
empty visited set. -/
def has_cycles_from (g : List TidemanNode) (node_id : Nat) : Bool :=
  (has_cycles_dfs g (g.length + 1) node_id []).1

/-- Rust `TidemanGraph::lock`: validate both indices (first failure wins), push
the edge, and remove it again when the DFS reports a revisit. -/
def lock (g : List TidemanNode) (winner_id loser_id : Nat) :
    List TidemanNode × Option TidemanError :=
  if winner_id < g.length then
    if loser_id < g.length then
      let pushed := pushLink g winner_id loser_id
      if has_cycles_from pushed winner_id then
        (popLink pushed winner_id, some TidemanError.LockCreatedCycleError)
      else
        (pushed, none)
    else (g, some (TidemanError.CandidateNotFoundError (toString loser_id)))
  else (g, some (TidemanError.CandidateNotFoundError (toString winner_id)))

/-- Rust `TidemanGraph::lock_pairs`: attempt to lock every tabulated pair in
order, ignoring errors. -/
def lock_pairs (s : TGraph) : TGraph :=
  s.pairs.foldl
    (fun st p => { st with nodes := (lock st.nodes p.winner_id p.loser_id).1 }) s

/-- Single `+=`-style update of one cell of the margin matrix. -/
def addAt (M : Nat → Nat → Int) (a b : Nat) (x : Int) : Nat → Nat → Int :=
  fun i j => if i = a ∧ j = b then M i j + x else M i j

/-- The index pairs `(i, j)` visited by the tally loops
`for i in 0..n-1 { for j in i+1..n }`, in loop order. -/
def pairIndices (n : Nat) : List (Nat × Nat) :=
  (List.range (n - 1)).flatMap
    (fun i => (List.range' (i + 1) (n - (i + 1))).map (fun j => (i, j)))

/-- One ballot's contribution to the margin matrix:
`pairs[v[i]][v[j]] += 1; pairs[v[j]][v[i]] -= 1` for each position pair. -/
def tallyBallot (n : Nat) (M : Nat → Nat → Int) (v : List Nat) :
    Nat → Nat → Int :=
  (pairIndices n).foldl
    (fun M ij =>
      addAt (addAt M (v.getD ij.1 0) (v.getD ij.2 0) 1)
        (v.getD ij.2 0) (v.getD ij.1 0) (-1))
    M

/-- The margin matrix accumulated over all recorded ballots (the first
half of `TidemanGraph::tabulate`), as a total function on indices; cells
outside the `n × n` range are never touched and stay `0`. -/
def margins (n : Nat) (votes : List (List Nat)) : Nat → Nat → Int :=
  votes.foldl (fun M v => tallyBallot n M v) (fun _ _ => 0)

/-- The pair list built by `tabulate`'s second loop
`for i in 1..n { for j in 0..i }`. -/
def buildPairs (n : Nat) (M : Nat → Nat → Int) : List TidemanPair :=
  (List.range' 1 (n - 1)).flatMap
    (fun i => (List.range i).map
      (fun j => if M i j < 0 then ⟨j, i, -(M i j)⟩ else ⟨i, j, M i j⟩))

/-- Rust `slice::swap i j`, modelled on lists (both indices in range at every
call site). -/
def swapL {T : Type} [Inhabited T] (l : List T) (i j : Nat) : List T :=
  (l.set i (l.getD j default)).set j (l.getD i default)

/-- Rust `sort::position_pivot`: median-of-three-style selection via the two
xor tests, then swap the chosen pivot to the last slot. -/
def position_pivot {T : Type} [Inhabited T] (cmp : T → T → Bool) (l : List T) :
    List T :=
  let n := l.length
  let mid := n / 2
  let pp :=
    if Bool.xor (cmp (l.getD mid default) (l.getD 0 default))
        (cmp (l.getD (n - 1) default) (l.getD 0 default)) then 0
    else if Bool.xor (cmp (l.getD 0 default) (l.getD mid default))
        (cmp (l.getD (n - 1) default) (l.getD mid default)) then mid
    else n - 1
  swapL l pp (n - 1)

/-- Rust `sort::quicksort_partition`: the two-element special case, else pivot
positioning followed by the Lomuto sweep and the final pivot swap.
Returns the rearranged list and the pivot position. -/
def quicksort_partition {T : Type} [Inhabited T] (cmp : T → T → Bool)
    (l : List T) : List T × Nat :=
  let n := l.length
  if n = 2 then
    (if cmp (l.getD 1 default) (l.getD 0 default) then swapL l 0 1 else l, 1)
  else
    let lp := position_pivot cmp l
    let pivot := lp.getD (n - 1) default
    let r := (List.range (n - 1)).foldl
      (fun acc i =>
        if cmp (acc.1.getD i default) pivot then (swapL acc.1 i acc.2, acc.2 + 1)
        else acc)
      (lp, 0)
    (swapL r.1 r.2 (n - 1), r.2)

/-- Rust `sort::quicksort_by`: recursion on the two sub-slices around the
pivot; the fuel (passed as `l.length` at top level) bounds the recursion
depth, which shrinks by at least one element per level. -/
def quicksort_by {T : Type} [Inhabited T] (cmp : T → T → Bool) :
    Nat → List T → List T
  | 0, l => l
  | fuel + 1, l =>
    if 1 < l.length then
      let pr := quicksort_partition cmp l
      quicksort_by cmp fuel (pr.1.take pr.2) ++
        pr.1.getD pr.2 default :: quicksort_by cmp fuel (pr.1.drop (pr.2 + 1))
    else l

/-- The comparator closure `|bigger, smaller| smaller.weight < bigger.weight`
passed to `quicksort_by` by `tabulate`. -/
def pairIsSmaller (bigger smaller : TidemanPair) : Bool :=
  decide (smaller.weight < bigger.weight)

/-- Rust `TidemanGraph::tabulate`: tally the margin matrix, push the derived
pairs onto `self.pairs`, and sort them by descending weight. -/
def tabulate (s : TGraph) : TGraph :=
  let M := margins s.nodes.length s.votes
  let ps := s.pairs ++ buildPairs s.nodes.length M
  { s with pairs := quicksort_by pairIsSmaller ps.length ps }

/-- The set of candidates with no incoming locked edge, as the sorted
list underlying the `HashSet` left after `get_winner`'s removal loop. -/
def possibleWinners (g : List TidemanNode) : List Nat :=
  (List.range g.length).filter (fun v => g.all (fun node => !(node.links.contains v)))

/-- Rust `TidemanGraph::get_winner`: among the candidates without incoming
edges, return the name of the first one (in the supplied hash-set
iteration order) with at least one outgoing edge; `none` models the
`panic!("Could not compute winner")`. -/
def get_winner (g : List TidemanNode) (order : List Nat) : Option String :=
  (order.find? (fun p => decide (0 < (linksOf g p).length))).map
    (fun w => (g.getD w default).candidate)

/-- The election state reached by `main` after registering `names` and
collecting `ballots` (each ballot a list of candidate indices, top choice
first), before tabulation. -/
def electionState (names : List String) (ballots : List (List Nat)) : TGraph :=
  { names.foldl (fun g nm => (add_candidate g nm).1) newGraph with votes := ballots }

/-- Scenario B of the spec: candidates A, B, C with pairwise margins
A over B by 5, B over C by 1, C over A by 1 (three ballots A>B>C, one
ballot B>C>A, three ballots C>A>B). -/
def scenarioB : TGraph :=
  electionState ["A", "B", "C"]
    [[0, 1, 2], [0, 1, 2], [0, 1, 2], [1, 2, 0], [2, 0, 1], [2, 0, 1], [2, 0, 1]]

/-- Scenario C of the spec: two candidates whose two ballots tie exactly. -/
def tieElection : TGraph := electionState ["A", "B"] [[0, 1], [1, 0]]

/-- A three-candidate election whose two weight-2 pairs expose the
instability of the quicksort: margins C over A by 2, C over B by 2,
A/B tied. -/
def unstableElection : TGraph :=
  electionState ["A", "B", "C"] [[2, 0, 1], [2, 1, 0]]

/-- A four-candidate election whose lock graph ends with two distinct
candidates that each have no incoming edge and at least one outgoing
edge. -/
def twoSourcesElection : TGraph :=
  electionState ["A", "B", "C", "D"]
    [[1, 0, 2, 3], [2, 0, 1, 3], [3, 0, 1, 2], [0, 2, 1, 3],
     [2, 3, 0, 1], [0, 1, 3, 2], [1, 2, 3, 0]]

/-- An acyclic lock graph with two distinct paths from node 0 to node 3. -/
def diamondGraph : List TidemanNode :=
  [⟨"A", [1, 2]⟩, ⟨"B", [3]⟩, ⟨"C", [3]⟩, ⟨"D", []⟩]

/-- A two-node lock graph with the single edge A→B. -/
def smallGraph : List TidemanNode := [⟨"A", [1]⟩, ⟨"B", []⟩]

/-- Positive-length paths along the locked edges. -/
inductive PathPos (g : List TidemanNode) : Nat → Nat → Prop
  | single {a b : Nat} : b ∈ linksOf g a → PathPos g a b
  | cons {a b c : Nat} : b ∈ linksOf g a → PathPos g b c → PathPos g a c

/-- Reachability in zero or more steps. -/
def ReachStar (g : List TidemanNode) (a b : Nat) : Prop :=
  a = b ∨ PathPos g a b

/-- No node lies on a directed cycle. -/
def Acyclic (g : List TidemanNode) : Prop := ∀ v, ¬ PathPos g v v

/-! ## Registry lemmas -/

theorem mapLookup_cons (e : String × Nat) (m : List (String × Nat)) (k : String) :
    mapLookup (e :: m) k = if e.1 == k then some e.2 else mapLookup m k := by
  by_cases h : e.1 == k <;> simp [mapLookup, List.find?_cons, h]

theorem mapLookup_append (m₁ m₂ : List (String × Nat)) (k : String) :
    mapLookup (m₁ ++ m₂) k = (mapLookup m₁ k).or (mapLookup m₂ k) := by
  induction m₁ with
  | nil => simp [mapLookup]
  | cons e m ih =>
    by_cases h : e.1 == k <;>
      simp [mapLookup_cons, h, ih]

theorem mapLookup_replace (m : List (String × Nat)) (k : String) (v : Nat)
    (h : (mapLookup m k).isSome = true) :
    mapLookup (m.map (fun e => if e.1 == k then (k, v) else e)) k = some v := by
  induction m with
  | nil => simp [mapLookup] at h
  | cons e m ih =>
    simp only [mapLookup_cons, beq_iff_eq] at h
    by_cases he : e.1 = k
    · simp [mapLookup_cons, he]
    · rw [if_neg he] at h
      have hrec := ih h
      simp only [beq_iff_eq] at hrec
      simp [mapLookup_cons, he, hrec]

/-- C9 (counterexample): candidate lookup is not case-insensitive; after
registering the name Alice, looking it up with its original casing fails
(only the lowercased key is stored), so the claimed success on every
casing variant is false. -/
theorem lookup_original_casing_fails :
    get_candidate_id (add_candidate newGraph ("Alice")).1 ("Alice") =
      Except.error (TidemanError.CandidateNotFoundError ("Alice")) ∧
    get_candidate_id (add_candidate newGraph ("Alice")).1 ("alice") =
      Except.ok 0 := by
  decide

/-- C9 (amended): immediately after `add_candidate` succeeds for `name`,
`get_candidate_id` applied to the lowercased form of `name` returns `Ok`
with the new candidate's index; other casings (in particular the original
one when it contains an uppercase letter) are not found. -/
theorem lookup_lowercase_after_add (s : TGraph) (name : String)
    (h : (add_candidate s name).2 = none) :
    get_candidate_id (add_candidate s name).1 (to_lowercase name) =
      Except.ok s.nodes.length := by
  cases hL : mapLookup s.names_ids_map (to_lowercase name) with
  | some old => simp only [add_candidate, mapInsert, hL] at h; simp at h
  | none =>
    simp only [add_candidate, mapInsert, hL]
    unfold get_candidate_id contains
    rw [mapLookup_append, hL]
    simp [mapLookup]

theorem lookup_lowercase_after_add_witness :
    (add_candidate newGraph ("Alice")).2 = none ∧
    get_candidate_id (add_candidate newGraph ("Alice")).1 (to_lowercase ("Alice")) =
      Except.ok newGraph.nodes.length :=
  ⟨by decide, lookup_lowercase_after_add newGraph ("Alice") (by decide)⟩

/-- C10: re-registering a name whose lowercase form is already a key
reports `CandidateAlreadyExistsError` and pushes no node, but first
overwrites the map entry with the current node count, so a later lookup of
the lowercased name returns `Ok` with an index at which no node exists. -/
theorem duplicate_add_overwrites_index (s : TGraph) (name : String)
    (h : (mapLookup s.names_ids_map (to_lowercase name)).isSome = true) :
    (add_candidate s name).2 =
      some (TidemanError.CandidateAlreadyExistsError name) ∧
    (add_candidate s name).1.nodes = s.nodes ∧
    get_candidate_id (add_candidate s name).1 (to_lowercase name) =
      Except.ok s.nodes.length ∧
    ¬ s.nodes.length < (add_candidate s name).1.nodes.length := by
  obtain ⟨old, hL⟩ := Option.isSome_iff_exists.mp h
  have hstate : add_candidate s name =
      (TGraph.mk s.nodes
        (s.names_ids_map.map (fun e =>
          if e.1 == to_lowercase name then (to_lowercase name, s.nodes.length)
          else e))
        s.votes s.pairs,
       some (TidemanError.CandidateAlreadyExistsError name)) := by
    simp only [add_candidate, mapInsert, hL]
  rw [hstate]
  refine ⟨rfl, rfl, ?_, by simp⟩
  unfold get_candidate_id contains
  rw [mapLookup_replace s.names_ids_map (to_lowercase name) s.nodes.length h]
  simp

theorem duplicate_add_overwrites_index_witness :
    ((mapLookup (add_candidate newGraph ("Alice")).1.names_ids_map
        (to_lowercase ("ALICE"))).isSome = true) ∧
    ((add_candidate (add_candidate newGraph ("Alice")).1 ("ALICE")).2 =
      some (TidemanError.CandidateAlreadyExistsError ("ALICE")) ∧
    (add_candidate (add_candidate newGraph ("Alice")).1 ("ALICE")).1.nodes =
      (add_candidate newGraph ("Alice")).1.nodes ∧
    get_candidate_id (add_candidate (add_candidate newGraph ("Alice")).1 ("ALICE")).1
        (to_lowercase ("ALICE")) =
      Except.ok (add_candidate newGraph ("Alice")).1.nodes.length ∧
    ¬ (add_candidate newGraph ("Alice")).1.nodes.length <
        (add_candidate (add_candidate newGraph ("Alice")).1 ("ALICE")).1.nodes.length) :=
  ⟨by decide,
    duplicate_add_overwrites_index (add_candidate newGraph ("Alice")).1 ("ALICE")
      (by decide)⟩

/-! ## List index helpers -/

theorem set_getD_self {α : Type} (l : List α) (i : Nat) (d : α)
    (h : i < l.length) : l.set i (l.getD i d) = l := by
  induction l generalizing i with
  | nil => simp at h
  | cons x xs ih =>
    cases i with
    | zero => simp
    | succ n =>
      simp only [List.length_cons, Nat.succ_lt_succ_iff] at h
      have hr := ih n h
      rw [List.getD_eq_getElem?_getD] at hr
      simp [List.getD_cons_succ, hr]

theorem getD_set_self {α : Type} (l : List α) (i : Nat) (x d : α)
    (h : i < l.length) : (l.set i x).getD i d = x := by
  simp [List.getD_eq_getElem?_getD, List.getElem?_set_self, h]

theorem getD_set_ne {α : Type} (l : List α) (i j : Nat) (x d : α)
    (h : i ≠ j) : (l.set i x).getD j d = l.getD j d := by
  simp [List.getD_eq_getElem?_getD, List.getElem?_set_ne h]

/-! ## Paths, reachability and ranks -/

theorem pathPos_trans {g : List TidemanNode} {a b c : Nat}
    (h1 : PathPos g a b) (h2 : PathPos g b c) : PathPos g a c := by
  induction h1 with
  | single hab => exact PathPos.cons hab h2
  | cons hab _ ih => exact PathPos.cons hab (ih h2)

theorem pathPos_of_edge_reachStar {g : List TidemanNode} {a b c : Nat}
    (he : b ∈ linksOf g a) (h : ReachStar g b c) : PathPos g a c := by
  cases h with
  | inl heq => exact heq ▸ PathPos.single he
  | inr hp => exact PathPos.cons he hp

theorem reachStar_trans {g : List TidemanNode} {a b c : Nat}
    (h1 : ReachStar g a b) (h2 : ReachStar g b c) : ReachStar g a c := by
  cases h1 with
  | inl h => exact h ▸ h2
  | inr p1 =>
    cases h2 with
    | inl h => exact h ▸ Or.inr p1
    | inr p2 => exact Or.inr (pathPos_trans p1 p2)

theorem linksOf_eq_nil_of_ge {g : List TidemanNode} {a : Nat}
    (h : g.length ≤ a) : linksOf g a = [] := by
  unfold linksOf
  rw [List.getD_eq_default _ _ h]
  rfl

theorem pathPos_lt_of_ranked {g : List TidemanNode}
    (hr : ∀ a, a < g.length → ∀ b ∈ linksOf g a, a < b) :
    ∀ {a b : Nat}, PathPos g a b → a < b := by
  intro a b hp
  induction hp with
  | @single a b hab =>
    by_cases ha : a < g.length
    · exact hr _ ha _ hab
    · rw [linksOf_eq_nil_of_ge (Nat.le_of_not_lt ha)] at hab
      exact absurd hab (List.not_mem_nil _)
  | @cons a b c hab _ ih =>
    by_cases ha : a < g.length
    · exact Nat.lt_trans (hr _ ha _ hab) ih
    · rw [linksOf_eq_nil_of_ge (Nat.le_of_not_lt ha)] at hab
      exact absurd hab (List.not_mem_nil _)

theorem acyclic_of_ranked {g : List TidemanNode}
    (hr : ∀ a, a < g.length → ∀ b ∈ linksOf g a, a < b) : Acyclic g :=
  fun v hv => absurd (pathPos_lt_of_ranked hr hv) (Nat.lt_irrefl v)

/-- C2: the cycle test is wrong on the code.  On the acyclic diamond graph
(labelled A through D, edges A→B, A→C, B→D, C→D), `lock(0, 3)` removes the
just-added edge and returns `LockCreatedCycleError` even though the edge
A→D creates no directed cycle: the DFS merely reaches D twice.  This
contradicts the claimed equivalence between "winner reachable from itself"
and "the traversal revisits an already-visited node", and contradicts
`has_cycles_from`'s own documentation. -/
theorem lock_rejects_edge_without_cycle :
    lock diamondGraph 0 3 =
      (diamondGraph, some TidemanError.LockCreatedCycleError) ∧
    Acyclic (pushLink diamondGraph 0 3) :=
  ⟨by decide, acyclic_of_ranked (by decide)⟩

/-! ## Soundness of the DFS `false` answer -/

theorem dfs_loop_true (g : List TidemanNode) (fuel : Nat) (xs W : List Nat) :
    xs.foldl (fun r link_id => if r.1 then r else has_cycles_dfs g fuel link_id r.2)
      (true, W) = (true, W) := by
  induction xs with
  | nil => rfl
  | cons c xs ih => exact ih

theorem dfs_loop_inv_aux (g : List TidemanNode) (fuel : Nat)
    (hA : ∀ u V V', has_cycles_dfs g fuel u V = (false, V') →
      u ∉ V ∧ (∀ x ∈ V, x ∈ V') ∧ u ∈ V' ∧
      (∀ z ∈ V', z ∉ V → ∀ y ∈ linksOf g z, y ∈ V' ∧ y ∉ V ∧ y ≠ u)) :
    ∀ (xs V V' : List Nat),
      xs.foldl (fun r link_id => if r.1 then r else has_cycles_dfs g fuel link_id r.2)
        (false, V) = (false, V') →
      (∀ x ∈ V, x ∈ V') ∧ (∀ c ∈ xs, c ∈ V' ∧ c ∉ V) ∧
      (∀ z ∈ V', z ∉ V → ∀ y ∈ linksOf g z, y ∈ V' ∧ y ∉ V ∧ y ∉ xs) := by
  intro xs
  induction xs with
  | nil =>
    intro V V' h
    simp only [List.foldl_nil, Prod.mk.injEq, true_and] at h
    subst h
    exact ⟨fun x hx => hx, by simp, fun z hz hnz => (hnz hz).elim⟩
  | cons c xs ih =>
    intro V V' h
    rw [List.foldl_cons] at h
    have h' : xs.foldl
        (fun r link_id => if r.1 then r else has_cycles_dfs g fuel link_id r.2)
        (has_cycles_dfs g fuel c V) = (false, V') := h
    cases hc : has_cycles_dfs g fuel c V with
    | mk b W =>
      rw [hc] at h'
      cases b with
      | true =>
        rw [dfs_loop_true] at h'
        exact absurd h' (by simp)
      | false =>
        obtain ⟨hcV, hVW, hcW, hiiC⟩ := hA c V W hc
        obtain ⟨hWV', hmemXs, hclosedRest⟩ := ih W V' h'
        refine ⟨fun x hx => hWV' x (hVW x hx), ?_, ?_⟩
        · intro c' hc'
          rcases List.mem_cons.mp hc' with hh | ht
          · exact hh ▸ ⟨hWV' c hcW, hcV⟩
          · obtain ⟨h1, h2⟩ := hmemXs c' ht
            exact ⟨h1, fun hx => h2 (hVW c' hx)⟩
        · intro z hz hzV y hy
          by_cases hzW : z ∈ W
          · obtain ⟨hy1, hy2, hy3⟩ := hiiC z hzW hzV y hy
            refine ⟨hWV' y hy1, hy2, ?_⟩
            intro hyx
            rcases List.mem_cons.mp hyx with hh | ht
            · exact hy3 hh
            · exact (hmemXs y ht).2 hy1
          · obtain ⟨hy1, hy2, hy3⟩ := hclosedRest z hz hzW y hy
            refine ⟨hy1, fun hx => hy2 (hVW y hx), ?_⟩
            intro hyx
            rcases List.mem_cons.mp hyx with hh | ht
            · exact hy2 (hh ▸ hcW)
            · exact hy3 ht

theorem dfs_node_inv (g : List TidemanNode) :
    ∀ (fuel u : Nat) (V V' : List Nat),
      has_cycles_dfs g fuel u V = (false, V') →
      u ∉ V ∧ (∀ x ∈ V, x ∈ V') ∧ u ∈ V' ∧
      (∀ z ∈ V', z ∉ V → ∀ y ∈ linksOf g z, y ∈ V' ∧ y ∉ V ∧ y ≠ u) := by
  intro fuel
  induction fuel with
  | zero => intro u V V' h; simp [has_cycles_dfs] at h
  | succ fuel ih =>
    intro u V V' h
    by_cases hu : u ∈ V
    · simp [has_cycles_dfs, hu] at h
    · have h' : (linksOf g u).foldl
          (fun r link_id => if r.1 then r else has_cycles_dfs g fuel link_id r.2)
          (false, u :: V) = (false, V') := by
        simpa [has_cycles_dfs, hu] using h
      obtain ⟨hsub, hmem, hclosed⟩ := dfs_loop_inv_aux g fuel ih _ _ _ h'
      refine ⟨hu, fun x hx => hsub x (List.mem_cons_of_mem u hx),
        hsub u (List.mem_cons_self u V), ?_⟩
      intro z hz hzV y hy
      by_cases hzu : z = u
      · subst hzu
        obtain ⟨hy1, hy2⟩ := hmem y hy
        exact ⟨hy1, fun hyV => hy2 (List.mem_cons_of_mem _ hyV),
          fun hyu => hy2 (hyu ▸ List.mem_cons_self _ _)⟩
      · have hz' : z ∉ u :: V := by
          intro hmemz
          rcases List.mem_cons.mp hmemz with hh | ht
          · exact hzu hh
          · exact hzV ht
        obtain ⟨hy1, hy2, hy3⟩ := hclosed z hz hz' y hy
        exact ⟨hy1, fun hyV => hy2 (List.mem_cons_of_mem _ hyV),
          fun hyu => hy2 (hyu ▸ List.mem_cons_self _ _)⟩

theorem dfs_false_no_cycle (g : List TidemanNode) (s : Nat)
    (h : has_cycles_from g s = false) : ¬ PathPos g s s := by
  unfold has_cycles_from at h
  cases heq : has_cycles_dfs g (g.length + 1) s [] with
  | mk b V' =>
    rw [heq] at h
    have hb : b = false := h
    subst hb
    obtain ⟨-, -, hsV, hclosed⟩ := dfs_node_inv g (g.length + 1) s [] V' heq
    have key : ∀ a b, PathPos g a b → a ∈ V' → b ∈ V' ∧ b ≠ s := by
      intro a b hp
      induction hp with
      | single hab =>
        intro ha
        have hres := hclosed _ ha (List.not_mem_nil _) _ hab
        exact ⟨hres.1, hres.2.2⟩
      | cons hab _ ihp =>
        intro ha
        have hres := hclosed _ ha (List.not_mem_nil _) _ hab
        exact ihp hres.1
    intro hcyc
    exact (key s s hcyc hsV).2 rfl

/-! ## The lock operation preserves acyclicity -/

theorem linksOf_pushLink {g : List TidemanNode} {w : Nat} (l : Nat)
    (hw : w < g.length) (a : Nat) :
    linksOf (pushLink g w l) a =
      if a = w then linksOf g a ++ [l] else linksOf g a := by
  by_cases h : a = w
  · subst h
    unfold linksOf pushLink
    rw [getD_set_self _ _ _ _ hw]
    simp
  · unfold linksOf pushLink
    rw [getD_set_ne _ _ _ _ _ (fun heq => h heq.symm)]
    simp [h]

theorem edge_pushLink_of_edge {g : List TidemanNode} {w l a b : Nat}
    (hw : w < g.length) (h : b ∈ linksOf g a) :
    b ∈ linksOf (pushLink g w l) a := by
  rw [linksOf_pushLink l hw]
  by_cases haw : a = w
  · rw [if_pos haw]; exact List.mem_append_left _ h
  · rw [if_neg haw]; exact h

theorem popLink_pushLink {g : List TidemanNode} {w l : Nat}
    (hw : w < g.length) : popLink (pushLink g w l) w = g := by
  unfold popLink pushLink
  rw [getD_set_self _ _ _ _ hw]
  simp only [List.dropLast_concat]
  rw [List.set_set]
  exact set_getD_self g w default hw

theorem pathPos_pushLink_cases {g : List TidemanNode} {w l : Nat}
    (hw : w < g.length) :
    ∀ {a b : Nat}, PathPos (pushLink g w l) a b →
      PathPos g a b ∨
        (ReachStar (pushLink g w l) a w ∧ ReachStar (pushLink g w l) l b) := by
  intro a b hp
  induction hp with
  | @single a b hab =>
    rw [linksOf_pushLink l hw] at hab
    by_cases haw : a = w
    · rw [if_pos haw] at hab
      rcases List.mem_append.mp hab with h1 | h2
      · exact Or.inl (PathPos.single h1)
      · have hbl : b = l := by simpa using h2
        exact Or.inr ⟨Or.inl haw, Or.inl hbl.symm⟩
    · rw [if_neg haw] at hab
      exact Or.inl (PathPos.single hab)
  | @cons a m b hab hbc ihp =>
    rw [linksOf_pushLink l hw] at hab
    by_cases haw : a = w
    · rw [if_pos haw] at hab
      rcases List.mem_append.mp hab with h1 | h2
      · rcases ihp with hg | ⟨hrw, hrl⟩
        · exact Or.inl (PathPos.cons h1 hg)
        · exact Or.inr
            ⟨Or.inr (pathPos_of_edge_reachStar (edge_pushLink_of_edge hw h1) hrw),
              hrl⟩
      · have hml : m = l := by simpa using h2
        exact Or.inr ⟨Or.inl haw, Or.inr (hml ▸ hbc)⟩
    · rw [if_neg haw] at hab
      rcases ihp with hg | ⟨hrw, hrl⟩
      · exact Or.inl (PathPos.cons hab hg)
      · exact Or.inr
          ⟨Or.inr (pathPos_of_edge_reachStar (edge_pushLink_of_edge hw hab) hrw),
            hrl⟩

theorem lock_eq {g : List TidemanNode} {w l : Nat}
    (hw : w < g.length) (hl : l < g.length) :
    lock g w l =
      if has_cycles_from (pushLink g w l) w then
        (popLink (pushLink g w l) w, some TidemanError.LockCreatedCycleError)
      else (pushLink g w l, none) := by
  unfold lock
  rw [if_pos hw, if_pos hl]

theorem lock_fst_invalid {g : List TidemanNode} {w l : Nat}
    (h : ¬ (w < g.length ∧ l < g.length)) : (lock g w l).1 = g := by
  unfold lock
  by_cases hw : w < g.length
  · have hl : ¬ l < g.length := fun hl => h ⟨hw, hl⟩
    rw [if_pos hw, if_neg hl]
  · rw [if_neg hw]

theorem lock_preserves_acyclic {g : List TidemanNode} (hg : Acyclic g)
    (w l : Nat) : Acyclic (lock g w l).1 := by
  by_cases hv : w < g.length ∧ l < g.length
  · rw [lock_eq hv.1 hv.2]
    by_cases hc : has_cycles_from (pushLink g w l) w
    · rw [if_pos hc]
      show Acyclic (popLink (pushLink g w l) w)
      rw [popLink_pushLink hv.1]
      exact hg
    · rw [if_neg hc]
      show Acyclic (pushLink g w l)
      intro v hcyc
      rcases pathPos_pushLink_cases hv.1 hcyc with hgp | ⟨hrw, hrl⟩
      · exact hg v hgp
      · have hlw : ReachStar (pushLink g w l) l w := reachStar_trans hrl hrw
        have hedge : l ∈ linksOf (pushLink g w l) w := by
          rw [linksOf_pushLink l hv.1]
          simp
        have hww : PathPos (pushLink g w l) w w :=
          pathPos_of_edge_reachStar hedge hlw
        have hfalse : has_cycles_from (pushLink g w l) w = false := by
          simpa using hc
        exact dfs_false_no_cycle _ _ hfalse hww
  · rw [lock_fst_invalid hv]
    exact hg

/-! ## Claim C1: the lock graph stays acyclic -/

theorem foldl_lock_nodes (ps : List TidemanPair) :
    ∀ st : TGraph,
      (ps.foldl
        (fun st p => { st with nodes := (lock st.nodes p.winner_id p.loser_id).1 })
        st).nodes
      = ps.foldl (fun g p => (lock g p.winner_id p.loser_id).1) st.nodes := by
  induction ps with
  | nil => intro st; rfl
  | cons p ps ih =>
    intro st
    rw [List.foldl_cons, List.foldl_cons]
    exact ih _

theorem foldl_lock_acyclic (ps : List TidemanPair) :
    ∀ g : List TidemanNode, Acyclic g →
      Acyclic (ps.foldl (fun g p => (lock g p.winner_id p.loser_id).1) g) := by
  induction ps with
  | nil => intro g hg; exact hg
  | cons p ps ih =>
    intro g hg
    rw [List.foldl_cons]
    exact ih _ (lock_preserves_acyclic hg _ _)

theorem linksOf_eq_nil_of_all {g : List TidemanNode}
    (h : ∀ nd ∈ g, nd.links = []) (a : Nat) : linksOf g a = [] := by
  by_cases ha : a < g.length
  · unfold linksOf
    rw [List.getD_eq_getElem _ _ ha]
    exact h _ (List.getElem_mem ha)
  · exact linksOf_eq_nil_of_ge (Nat.le_of_not_lt ha)

theorem acyclic_of_no_links {g : List TidemanNode}
    (h : ∀ nd ∈ g, nd.links = []) : Acyclic g := by
  intro v hv
  cases hv with
  | single hab =>
    rw [linksOf_eq_nil_of_all h] at hab
    exact absurd hab (List.not_mem_nil _)
  | cons hab _ =>
    rw [linksOf_eq_nil_of_all h] at hab
    exact absurd hab (List.not_mem_nil _)

/-- C1: starting from a graph whose nodes all have empty links lists (the
state in which `lock_pairs` finds the graph), the graph left by any run of
`lock_pairs` is acyclic; since the state after any individual `lock` call
is `lock_pairs` run on a prefix of the pair list, and the pair list here
is arbitrary, the invariant holds after every individual call. -/
theorem lock_pairs_acyclic (s : TGraph) (h : ∀ nd ∈ s.nodes, nd.links = []) :
    Acyclic (lock_pairs s).nodes := by
  unfold lock_pairs
  rw [foldl_lock_nodes]
  exact foldl_lock_acyclic s.pairs s.nodes (acyclic_of_no_links h)

theorem lock_pairs_acyclic_witness :
    (∀ nd ∈ (tabulate tieElection).nodes, nd.links = []) ∧
    Acyclic (lock_pairs (tabulate tieElection)).nodes :=
  ⟨by decide, lock_pairs_acyclic (tabulate tieElection) (by decide)⟩

/-! ## Winner resolution -/

theorem lock_pairs_nodes (s : TGraph) :
    (lock_pairs s).nodes =
      s.pairs.foldl (fun g p => (lock g p.winner_id p.loser_id).1) s.nodes := by
  unfold lock_pairs
  exact foldl_lock_nodes _ _

/-- C3 (counterexample): a tabulated election after which two distinct
candidates (indices 0 and 2) both have no incoming locked edge and a
non-empty outgoing adjacency, refuting "at most one candidate has zero
incoming locked edges and at least one outgoing locked edge". -/
theorem two_undefeated_candidates :
    possibleWinners (lock_pairs (tabulate twoSourcesElection)).nodes = [0, 2] ∧
    linksOf (lock_pairs (tabulate twoSourcesElection)).nodes 0 ≠ [] ∧
    linksOf (lock_pairs (tabulate twoSourcesElection)).nodes 2 ≠ [] := by
  decide

/-- C3 (amended): the qualifying set can hold more than one candidate; what
`get_winner` guarantees is that, for whatever order the hash set iterates
the candidates without incoming edges, the returned winner is a member of
that set with at least one outgoing edge when one exists, and the panic
(modelled as `none`) happens exactly when no such member exists. -/
theorem get_winner_spec (g : List TidemanNode) (order : List Nat)
    (hperm : List.Perm order (possibleWinners g)) :
    ((∃ p ∈ possibleWinners g, linksOf g p ≠ []) →
      ∃ w, get_winner g order = some ((g.getD w default).candidate) ∧
        w ∈ possibleWinners g ∧ linksOf g w ≠ []) ∧
    ((∀ p ∈ possibleWinners g, linksOf g p = []) → get_winner g order = none) := by
  constructor
  · intro hex
    obtain ⟨p, hp, hpl⟩ := hex
    have hpord : p ∈ order := hperm.mem_iff.mpr hp
    have hsome : (order.find? (fun q => decide (0 < (linksOf g q).length))).isSome := by
      apply List.find?_isSome.mpr
      refine ⟨p, hpord, ?_⟩
      simpa [List.length_pos] using hpl
    obtain ⟨w, hw⟩ := Option.isSome_iff_exists.mp hsome
    refine ⟨w, ?_, ?_, ?_⟩
    · unfold get_winner
      rw [hw]
      rfl
    · exact hperm.mem_iff.mp (List.mem_of_find?_eq_some hw)
    · have hlen := List.find?_some hw
      simp only [decide_eq_true_eq] at hlen
      intro hnil
      rw [hnil] at hlen
      exact absurd hlen (by simp)
  · intro hall
    have hnone : order.find? (fun q => decide (0 < (linksOf g q).length)) = none := by
      apply List.find?_eq_none.mpr
      intro x hx
      have hxp : x ∈ possibleWinners g := hperm.mem_iff.mp hx
      rw [hall x hxp]
      simp
    unfold get_winner
    rw [hnone]
    rfl

theorem get_winner_spec_witness :
    List.Perm [0] (possibleWinners smallGraph) ∧
    (((∃ p ∈ possibleWinners smallGraph, linksOf smallGraph p ≠ []) →
      ∃ w, get_winner smallGraph [0] =
          some ((smallGraph.getD w default).candidate) ∧
        w ∈ possibleWinners smallGraph ∧ linksOf smallGraph w ≠ []) ∧
    ((∀ p ∈ possibleWinners smallGraph, linksOf smallGraph p = []) →
      get_winner smallGraph [0] = none)) :=
  ⟨by decide, get_winner_spec smallGraph [0] (by decide)⟩

/-- C4 (counterexample): in the two-candidate exact tie, the zero-margin
pair (winner index 1, loser index 0) is built, `lock_pairs` locks the edge
B→A, and `get_winner` returns candidate B instead of signalling the
no-winner panic ([1] is the only iteration order of the singleton
winner set). -/
theorem tie_locks_edge_and_names_winner :
    (tabulate tieElection).pairs = [⟨1, 0, 0⟩] ∧
    linksOf (lock_pairs (tabulate tieElection)).nodes 1 = [0] ∧
    possibleWinners (lock_pairs (tabulate tieElection)).nodes = [1] ∧
    get_winner (lock_pairs (tabulate tieElection)).nodes [1] = some ("B") := by
  decide

/-- C4 (amended): for every two-candidate election whose ballots tie
exactly (margin 0), the zero-margin pair still locks the edge from
candidate 1 to candidate 0, and the winner query returns the second
candidate B rather than raising the no-winner error. -/
theorem tie_two_candidates (bs : List (List Nat)) (order : List Nat)
    (h : margins 2 bs 1 0 = 0)
    (hord : List.Perm order
      (possibleWinners (lock_pairs (tabulate (electionState ["A", "B"] bs))).nodes)) :
    linksOf (lock_pairs (tabulate (electionState ["A", "B"] bs))).nodes 1 = [0] ∧
    get_winner (lock_pairs (tabulate (electionState ["A", "B"] bs))).nodes order =
      some ("B") := by
  have hbuild : buildPairs 2 (margins 2 bs) = [⟨1, 0, 0⟩] := by
    unfold buildPairs
    rw [show List.range' 1 (2 - 1) = [1] from rfl]
    simp only [List.flatMap_cons, List.flatMap_nil, List.append_nil]
    rw [show List.range 1 = [0] from rfl]
    simp [h]
  have hpairs : (tabulate (electionState ["A", "B"] bs)).pairs = [⟨1, 0, 0⟩] := by
    unfold tabulate
    simp only []
    rw [show (electionState ["A", "B"] bs).nodes.length = 2 from rfl,
      show (electionState ["A", "B"] bs).pairs = [] from rfl,
      show (electionState ["A", "B"] bs).votes = bs from rfl]
    rw [List.nil_append, hbuild]
    rfl
  have hfinal : (lock_pairs (tabulate (electionState ["A", "B"] bs))).nodes =
      [⟨"A", []⟩, ⟨"B", [0]⟩] := by
    rw [lock_pairs_nodes, hpairs]
    rw [show (tabulate (electionState ["A", "B"] bs)).nodes =
      [⟨"A", []⟩, ⟨"B", []⟩] from rfl]
    decide
  have hpw : possibleWinners (lock_pairs (tabulate (electionState ["A", "B"] bs))).nodes
      = [1] := by
    rw [hfinal]
    decide
  rw [hpw] at hord
  have hord1 : order = [1] := List.perm_singleton.mp hord
  subst hord1
  rw [hfinal]
  exact ⟨rfl, rfl⟩

theorem tie_two_candidates_witness :
    (margins 2 [[0, 1], [1, 0]] 1 0 = 0 ∧
      List.Perm [1]
        (possibleWinners
          (lock_pairs (tabulate (electionState ["A", "B"] [[0, 1], [1, 0]]))).nodes)) ∧
    (linksOf (lock_pairs (tabulate (electionState ["A", "B"] [[0, 1], [1, 0]]))).nodes 1
        = [0] ∧
      get_winner (lock_pairs (tabulate (electionState ["A", "B"] [[0, 1], [1, 0]]))).nodes
        [1] = some ("B")) :=
  ⟨⟨by decide, by decide⟩,
    tie_two_candidates [[0, 1], [1, 0]] [1] (by decide) (by decide)⟩

/-- C6 (counterexample): in scenario B the computed winner is candidate C,
not A ([2] is the only iteration order of the singleton winner set, and
the query does name a winner). -/
theorem scenarioB_winner_not_A :
    possibleWinners (lock_pairs (tabulate scenarioB)).nodes = [2] ∧
    get_winner (lock_pairs (tabulate scenarioB)).nodes [2] ≠ some ("A") ∧
    get_winner (lock_pairs (tabulate scenarioB)).nodes [2] ≠ none := by
  decide

/-- C6 (amended): in scenario B the highest-margin edge A→B is locked
first and never rolled back, and exactly one of the two margin-1 edges is
locked — but it is C→A (which precedes B→C both in the build enumeration
and in the sorted order), so B→C is the edge rejected as a cycle and the
computed winner is C, not A. -/
theorem scenarioB_resolution :
    (tabulate scenarioB).pairs = [⟨0, 1, 5⟩, ⟨2, 0, 1⟩, ⟨1, 2, 1⟩] ∧
    linksOf (lock_pairs (tabulate scenarioB)).nodes 0 = [1] ∧
    linksOf (lock_pairs (tabulate scenarioB)).nodes 2 = [0] ∧
    linksOf (lock_pairs (tabulate scenarioB)).nodes 1 = [] ∧
    possibleWinners (lock_pairs (tabulate scenarioB)).nodes = [2] ∧
    get_winner (lock_pairs (tabulate scenarioB)).nodes [2] = some ("C") := by
  decide

/-- C5 (counterexample): `build_pairs` emits the two weight-2 pairs in the
order C→A, C→B, but the quicksort outputs them as C→B, C→A, so equal-margin
pairs do not retain their build order: the sort is not stable. -/
theorem quicksort_not_stable :
    buildPairs 3 (margins 3 unstableElection.votes) =
      [⟨1, 0, 0⟩, ⟨2, 0, 2⟩, ⟨2, 1, 2⟩] ∧
    (tabulate unstableElection).pairs = [⟨2, 1, 2⟩, ⟨2, 0, 2⟩, ⟨1, 0, 0⟩] ∧
    (tabulate unstableElection).pairs ≠ [⟨2, 0, 2⟩, ⟨2, 1, 2⟩, ⟨1, 0, 0⟩] := by
  decide

/-! ## The margin matrix -/

theorem addAt_apply (M : Nat → Nat → Int) (a b : Nat) (x : Int) (i j : Nat) :
    addAt M a b x i j = M i j + (if i = a ∧ j = b then x else 0) := by
  unfold addAt
  split_ifs <;> simp

theorem tallyPair_antisymm (M : Nat → Nat → Int) (a b : Nat)
    (hM : ∀ i j, i ≠ j → M i j = -M j i) :
    ∀ i j, i ≠ j →
      addAt (addAt M a b 1) b a (-1) i j =
        -(addAt (addAt M a b 1) b a (-1) j i) := by
  intro i j hij
  have hbase := hM i j hij
  unfold addAt
  split_ifs <;> first | linarith [hbase] | (exfalso; omega)

theorem tallyBallot_antisymm (n : Nat) (v : List Nat) (M : Nat → Nat → Int)
    (hM : ∀ i j, i ≠ j → M i j = -M j i) :
    ∀ i j, i ≠ j → tallyBallot n M v i j = -(tallyBallot n M v j i) := by
  unfold tallyBallot
  generalize pairIndices n = ps
  induction ps generalizing M with
  | nil => exact hM
  | cons p ps ih =>
    rw [List.foldl_cons]
    exact ih _ (tallyPair_antisymm M _ _ hM)

/-- Helper: the margin matrix is skew-symmetric off the diagonal, with no
assumption on the recorded ballots. -/
theorem margins_skew (n : Nat) (votes : List (List Nat)) :
    ∀ i j, i ≠ j → margins n votes i j = -(margins n votes j i) := by
  unfold margins
  have hzero : ∀ i j : Nat, i ≠ j → (0 : Int) = -(0 : Int) := by simp
  generalize hM0 : (fun _ _ => (0 : Int)) = M0
  rw [← hM0]
  generalize hgen : (fun _ _ => (0 : Int)) = M
  have hM : ∀ i j, i ≠ j → M i j = -M j i := by rw [← hgen]; simp
  clear hgen hM0
  induction votes generalizing M with
  | nil => exact hM
  | cons v votes ih =>
    rw [List.foldl_cons]
    exact ih _ (tallyBallot_antisymm n v M hM)

/-- C7: for every set of recorded ballots (each a permutation of the
candidate indices) the tallied margin matrix satisfies
`M[i][j] = -M[j][i]` off the diagonal. -/
theorem margins_antisymmetric (n : Nat) (votes : List (List Nat))
    (hb : ∀ v ∈ votes, List.Perm v (List.range n)) (i j : Nat) (hij : i ≠ j) :
    margins n votes i j = -(margins n votes j i) :=
  margins_skew n votes i j hij

theorem margins_antisymmetric_witness :
    ((∀ v ∈ [[0, 1], [1, 0]], List.Perm v (List.range 2)) ∧ 0 ≠ 1) ∧
    margins 2 [[0, 1], [1, 0]] 0 1 = -(margins 2 [[0, 1], [1, 0]] 1 0) :=
  ⟨⟨by decide, by decide⟩,
    margins_antisymmetric 2 [[0, 1], [1, 0]] (by decide) 0 1 (by decide)⟩

theorem foldl_eq_of_swap {α β : Type} (f : β → α → β)
    (H : ∀ b a1 a2, f (f b a1) a2 = f (f b a2) a1) :
    ∀ {l1 l2 : List α}, List.Perm l1 l2 → ∀ b, l1.foldl f b = l2.foldl f b := by
  intro l1 l2 hp
  induction hp with
  | nil => intro b; rfl
  | cons x _ ih =>
    intro b
    rw [List.foldl_cons, List.foldl_cons]
    exact ih _
  | swap x y l =>
    intro b
    simp only [List.foldl_cons]
    rw [H]
  | trans _ _ ih1 ih2 =>
    intro b
    rw [ih1, ih2]

theorem tallyBallot_add (n : Nat) (v : List Nat) :
    ∀ (M : Nat → Nat → Int) (i j : Nat),
      tallyBallot n M v i j = M i j + tallyBallot n (fun _ _ => 0) v i j := by
  unfold tallyBallot
  generalize pairIndices n = ps
  induction ps with
  | nil => simp
  | cons p ps ih =>
    intro M i j
    rw [List.foldl_cons, List.foldl_cons, ih _ i j,
      ih (addAt (addAt (fun _ _ => 0) (v.getD p.1 0) (v.getD p.2 0) 1)
        (v.getD p.2 0) (v.getD p.1 0) (-1)) i j]
    rw [addAt_apply, addAt_apply, addAt_apply, addAt_apply]
    ring

theorem tallyBallot_comm (n : Nat) (M : Nat → Nat → Int) (v1 v2 : List Nat) :
    tallyBallot n (tallyBallot n M v1) v2 = tallyBallot n (tallyBallot n M v2) v1 := by
  funext i j
  rw [tallyBallot_add n v2 (tallyBallot n M v1) i j, tallyBallot_add n v1 M i j,
    tallyBallot_add n v1 (tallyBallot n M v2) i j, tallyBallot_add n v2 M i j]
  ring

/-- C8: the margin tally is commutative in ballot order — permuting the
recorded ballots leaves the margin matrix unchanged. -/
theorem margins_ballot_order_irrelevant (n : Nat) (votes1 votes2 : List (List Nat))
    (hp : List.Perm votes1 votes2) : margins n votes1 = margins n votes2 := by
  unfold margins
  exact foldl_eq_of_swap _ (fun M a b => tallyBallot_comm n M a b) hp _

theorem margins_ballot_order_irrelevant_witness :
    List.Perm [[0, 1], [1, 0]] [[1, 0], [0, 1]] ∧
    margins 2 [[0, 1], [1, 0]] = margins 2 [[1, 0], [0, 1]] :=
  ⟨by decide,
    margins_ballot_order_irrelevant 2 [[0, 1], [1, 0]] [[1, 0], [0, 1]] (by decide)⟩

/-! ## Quicksort: swap lemmas -/

theorem length_swapL {T : Type} [Inhabited T] (l : List T) (i j : Nat) :
    (swapL l i j).length = l.length := by
  simp [swapL]

theorem swapL_cons {T : Type} [Inhabited T] (x : T) (l : List T) (i j : Nat) :
    swapL (x :: l) (i + 1) (j + 1) = x :: swapL l i j := by
  simp [swapL, List.getD_cons_succ, List.set_cons_succ]

theorem swapL_self {T : Type} [Inhabited T] (l : List T) (i : Nat)
    (h : i < l.length) : swapL l i i = l := by
  unfold swapL
  rw [List.set_set]
  exact set_getD_self l i default h

theorem swapL_comm {T : Type} [Inhabited T] (l : List T) (i j : Nat) :
    swapL l i j = swapL l j i := by
  by_cases h : i = j
  · rw [h]
  · unfold swapL
    rw [List.set_comm _ _ _ h]

theorem getD_append_self {T : Type} (m : List T) (z : T) (rest : List T) (d : T) :
    (m ++ z :: rest).getD m.length d = z := by
  simp [List.getD_eq_getElem?_getD, List.getElem?_append_right (Nat.le_refl _)]

theorem set_append_self {T : Type} (m : List T) (z : T) (rest : List T) (y : T) :
    (m ++ z :: rest).set m.length y = m ++ y :: rest := by
  induction m with
  | nil => rfl
  | cons a m ih => simp [List.set_cons_succ, ih]

theorem drop_append_cons {T : Type} (P : List T) (piv : T) (Q : List T) :
    (P ++ piv :: Q).drop (P.length + 1) = Q := by
  induction P with
  | nil => rfl
  | cons a P ih =>
    rw [List.cons_append, List.length_cons]
    rw [show P.length + 1 + 1 = (P.length + 1) + 1 from rfl, List.drop_succ_cons]
    exact ih

theorem swapL_append {T : Type} [Inhabited T] (xs : List T) (y : T) (m : List T)
    (z : T) (rest : List T) :
    swapL (xs ++ (y :: (m ++ (z :: rest)))) xs.length (xs.length + m.length + 1) =
      xs ++ (z :: (m ++ (y :: rest))) := by
  induction xs with
  | nil =>
    show swapL (y :: (m ++ (z :: rest))) 0 (0 + m.length + 1)
      = z :: (m ++ (y :: rest))
    rw [show (0 : Nat) + m.length + 1 = m.length + 1 by omega]
    unfold swapL
    rw [show (y :: (m ++ (z :: rest))).getD (m.length + 1) default
        = (m ++ (z :: rest)).getD m.length default from rfl]
    rw [show (m ++ (z :: rest)).getD m.length default = z from getD_append_self m z rest default]
    rw [show ((y :: (m ++ (z :: rest))).set 0 z) = z :: (m ++ (z :: rest)) from rfl]
    rw [show (y :: (m ++ (z :: rest))).getD 0 default = y from rfl]
    rw [show (z :: (m ++ (z :: rest))).set (m.length + 1) y
        = z :: (m ++ (z :: rest)).set m.length y from rfl]
    rw [show (m ++ (z :: rest)).set m.length y = m ++ (y :: rest) from
      set_append_self m z rest y]
  | cons a xs ih =>
    show swapL (a :: (xs ++ (y :: (m ++ (z :: rest))))) (xs.length + 1)
      ((a :: xs).length + m.length + 1) = a :: (xs ++ (z :: (m ++ (y :: rest))))
    rw [show (a :: xs).length + m.length + 1 = (xs.length + m.length + 1) + 1 by
      simp [List.length_cons]; omega]
    rw [swapL_cons, ih]

theorem perm_middle_swap {T : Type} (u v : T) (m : List T) :
    List.Perm (u :: (m ++ [v])) (v :: (m ++ [u])) := by
  induction m with
  | nil => exact List.Perm.swap v u []
  | cons w m ih =>
    have h1 : List.Perm (u :: (w :: m ++ [v])) (w :: (u :: (m ++ [v]))) :=
      List.Perm.swap w u _
    have h2 : List.Perm (w :: (u :: (m ++ [v]))) (w :: (v :: (m ++ [u]))) :=
      ih.cons w
    have h3 : List.Perm (w :: (v :: (m ++ [u]))) (v :: (w :: m ++ [u])) :=
      List.Perm.swap v w _
    exact (h1.trans h2).trans h3

theorem perm_cons_set {T : Type} (xs : List T) (k : Nat) (x d : T)
    (h : k < xs.length) :
    List.Perm (xs.getD k d :: xs.set k x) (x :: xs) := by
  induction xs generalizing k with
  | nil => simp at h
  | cons y ys ih =>
    cases k with
    | zero => exact List.Perm.swap x y ys
    | succ n =>
      simp only [List.length_cons, Nat.succ_lt_succ_iff] at h
      have h1 : List.Perm ((y :: ys).getD (n + 1) d :: (y :: ys).set (n + 1) x)
          (y :: (ys.getD n d :: ys.set n x)) := List.Perm.swap y _ _
      have h2 : List.Perm (y :: (ys.getD n d :: ys.set n x)) (y :: (x :: ys)) :=
        (ih n h).cons y
      have h3 : List.Perm (y :: (x :: ys)) (x :: (y :: ys)) := List.Perm.swap x y ys
      exact (h1.trans h2).trans h3

theorem swapL_perm {T : Type} [Inhabited T] (l : List T) (i j : Nat)
    (hi : i < l.length) (hj : j < l.length) : List.Perm (swapL l i j) l := by
  induction l generalizing i j with
  | nil => simp at hi
  | cons x xs ih =>
    cases i with
    | zero =>
      cases j with
      | zero => rw [swapL_self _ _ hi]
      | succ n =>
        simp only [List.length_cons, Nat.succ_lt_succ_iff] at hj
        show List.Perm (((x :: xs).set 0 ((x :: xs).getD (n + 1) default)).set (n + 1)
          ((x :: xs).getD 0 default)) (x :: xs)
        rw [show (x :: xs).getD (n + 1) default = xs.getD n default from rfl,
          show (x :: xs).getD 0 default = x from rfl,
          show (x :: xs).set 0 (xs.getD n default) = xs.getD n default :: xs from rfl,
          show (xs.getD n default :: xs).set (n + 1) x
            = xs.getD n default :: xs.set n x from rfl]
        exact perm_cons_set xs n x default hj
    | succ a =>
      cases j with
      | zero =>
        rw [swapL_comm]
        simp only [List.length_cons, Nat.succ_lt_succ_iff] at hi
        show List.Perm (((x :: xs).set 0 ((x :: xs).getD (a + 1) default)).set (a + 1)
          ((x :: xs).getD 0 default)) (x :: xs)
        rw [show (x :: xs).getD (a + 1) default = xs.getD a default from rfl,
          show (x :: xs).getD 0 default = x from rfl,
          show (x :: xs).set 0 (xs.getD a default) = xs.getD a default :: xs from rfl,
          show (xs.getD a default :: xs).set (a + 1) x
            = xs.getD a default :: xs.set a x from rfl]
        exact perm_cons_set xs a x default hi
      | succ b =>
        simp only [List.length_cons, Nat.succ_lt_succ_iff] at hi hj
        rw [swapL_cons]
        exact (ih a b hi hj).cons x

/-! ## Quicksort: the Lomuto sweep invariant -/

theorem getD_append_add {T : Type} (l1 l2 : List T) (n : Nat) (d : T) :
    (l1 ++ l2).getD (l1.length + n) d = l2.getD n d := by
  simp [List.getD_eq_getElem?_getD, List.getElem?_append_right (Nat.le_add_right _ _)]

theorem take_succ_getD {T : Type} (l0 : List T) (k : Nat) (d : T)
    (h : k < l0.length) : l0.take (k + 1) = l0.take k ++ [l0.getD k d] := by
  rw [List.take_succ, List.getElem?_eq_getElem h, List.getD_eq_getElem l0 d h]
  rfl

theorem drop_cons_getD {T : Type} (l0 : List T) (k : Nat) (d : T)
    (h : k < l0.length) : l0.drop k = l0.getD k d :: l0.drop (k + 1) := by
  rw [List.getD_eq_getElem l0 d h]
  exact List.drop_eq_getElem_cons h

theorem lomuto_inv {T : Type} [Inhabited T] (cmp : T → T → Bool) (pivot : T)
    (l0 : List T) :
    ∀ k, k ≤ l0.length →
      ∃ A B, (List.range k).foldl
          (fun acc i => if cmp (acc.1.getD i default) pivot
            then (swapL acc.1 i acc.2, acc.2 + 1) else acc) (l0, 0)
          = (A ++ (B ++ l0.drop k), A.length) ∧
        List.Perm (A ++ B) (l0.take k) ∧
        (∀ x ∈ A, cmp x pivot = true) ∧ (∀ x ∈ B, cmp x pivot = false) := by
  intro k
  induction k with
  | zero =>
    intro _
    exact ⟨[], [], by simp, by simp, by simp, by simp⟩
  | succ k ihk =>
    intro hk1
    have hk : k < l0.length := hk1
    have hkle : k ≤ l0.length := Nat.le_of_lt hk
    obtain ⟨A, B, heq, hperm, hA, hB⟩ := ihk hkle
    rw [List.range_succ, List.foldl_append, heq]
    simp only [List.foldl_cons, List.foldl_nil]
    have hlenAB : A.length + B.length = k := by
      have hlen := hperm.length_eq
      rw [List.length_append, List.length_take, Nat.min_eq_left hkle] at hlen
      exact hlen
    have hget : (A ++ (B ++ l0.drop k)).getD k default = l0.getD k default := by
      have h1 : (A ++ (B ++ l0.drop k)).getD (A.length + (B.length + 0)) default
          = (l0.drop k).getD 0 default := by
        rw [getD_append_add, getD_append_add]
      have h2 : A.length + (B.length + 0) = k := by omega
      rw [h2] at h1
      rw [h1, drop_cons_getD l0 k default hk]
      rfl
    have htake : l0.take (k + 1) = l0.take k ++ [l0.getD k default] :=
      take_succ_getD l0 k default hk
    by_cases hc : cmp (l0.getD k default) pivot = true
    · rw [hget, if_pos hc]
      cases B with
      | nil =>
        have hAk : A.length = k := by simpa using hlenAB
        have hself : swapL (A ++ ([] ++ l0.drop k)) k A.length
            = A ++ ([] ++ l0.drop k) := by
          rw [hAk]
          apply swapL_self
          simp only [List.length_append, List.nil_append, List.length_drop]
          omega
        refine ⟨A ++ [l0.getD k default], [], ?_, ?_, ?_, by simp⟩
        · rw [hself, drop_cons_getD l0 k default hk]
          simp
        · rw [htake]
          simp only [List.append_nil]
          exact (by simpa using hperm : List.Perm A (l0.take k)).append_right _
        · intro x hx
          rcases List.mem_append.mp hx with h1 | h2
          · exact hA x h1
          · rw [List.mem_singleton.mp h2]
            exact hc
      | cons b B' =>
        have hkeq : k = A.length + B'.length + 1 := by
          simp only [List.length_cons] at hlenAB
          omega
        have hswap : swapL (A ++ ((b :: B') ++ l0.drop k)) k A.length
            = A ++ (l0.getD k default :: (B' ++ (b :: l0.drop (k + 1)))) := by
          have hsw := swapL_append A b B' (l0.getD k default) (l0.drop (k + 1))
          rw [← hkeq] at hsw
          rw [swapL_comm, drop_cons_getD l0 k default hk]
          rw [show (b :: B') ++ (l0.getD k default :: l0.drop (k + 1))
            = b :: (B' ++ (l0.getD k default :: l0.drop (k + 1))) from rfl]
          exact hsw
        refine ⟨A ++ [l0.getD k default], B' ++ [b], ?_, ?_, ?_, ?_⟩
        · rw [hswap]
          simp [List.append_assoc]
        · have hpm : List.Perm ((A ++ [l0.getD k default]) ++ (B' ++ [b]))
              ((A ++ (b :: B')) ++ [l0.getD k default]) := by
            rw [show (A ++ [l0.getD k default]) ++ (B' ++ [b])
                = A ++ (l0.getD k default :: (B' ++ [b])) by simp]
            rw [show (A ++ (b :: B')) ++ [l0.getD k default]
                = A ++ (b :: (B' ++ [l0.getD k default])) by simp]
            exact (perm_middle_swap (l0.getD k default) b B').append_left A
          rw [htake]
          exact hpm.trans (hperm.append_right _)
        · intro x hx
          rcases List.mem_append.mp hx with h1 | h2
          · exact hA x h1
          · rw [List.mem_singleton.mp h2]
            exact hc
        · intro x hx
          rcases List.mem_append.mp hx with h1 | h2
          · exact hB x (List.mem_cons_of_mem b h1)
          · rw [List.mem_singleton.mp h2]
            exact hB b (List.mem_cons_self b B')
    · rw [hget, if_neg hc]
      refine ⟨A, B ++ [l0.getD k default], ?_, ?_, hA, ?_⟩
      · rw [drop_cons_getD l0 k default hk]
        simp
      · rw [htake, ← List.append_assoc]
        exact hperm.append_right _
      · intro x hx
        rcases List.mem_append.mp hx with h1 | h2
        · exact hB x h1
        · rw [List.mem_singleton.mp h2]
          exact Bool.not_eq_true _ ▸ hc

/-! ## Quicksort: partition specification -/

theorem length_position_pivot {T : Type} [Inhabited T] (cmp : T → T → Bool)
    (l : List T) : (position_pivot cmp l).length = l.length := by
  unfold position_pivot
  simp [length_swapL]

theorem position_pivot_perm {T : Type} [Inhabited T] (cmp : T → T → Bool)
    (l : List T) (h : 0 < l.length) : List.Perm (position_pivot cmp l) l := by
  unfold position_pivot
  apply swapL_perm
  · split_ifs <;> omega
  · omega

theorem quicksort_partition_spec {T : Type} [Inhabited T] (cmp : T → T → Bool)
    (htrans : ∀ a b c, cmp a b = true → cmp b c = true → cmp a c = true)
    (hasym : ∀ a b, cmp a b = true → cmp b a = false)
    (l : List T) (h2 : 2 ≤ l.length) :
    ∃ P piv Q, quicksort_partition cmp l = (P ++ (piv :: Q), P.length) ∧
      List.Perm (P ++ (piv :: Q)) l ∧
      (∀ x ∈ P, cmp piv x = false) ∧ (∀ y ∈ Q, cmp y piv = false) ∧
      (∀ x ∈ P, ∀ y ∈ Q, cmp y x = false) := by
  by_cases hn2 : l.length = 2
  · obtain ⟨a, b, rfl⟩ : ∃ a b, l = [a, b] := by
      cases l with
      | nil => simp at hn2
      | cons a t =>
        cases t with
        | nil => simp at hn2
        | cons b t2 =>
          have ht2' : t2 = [] := by
            cases t2 with
            | nil => rfl
            | cons c t3 =>
              exfalso
              rw [List.length_cons, List.length_cons, List.length_cons] at hn2
              omega
          subst ht2'
          exact ⟨a, b, rfl⟩
    by_cases hc : cmp b a = true
    · refine ⟨[b], a, [], ?_, ?_, ?_, by simp, by simp⟩
      · have hq : quicksort_partition cmp [a, b] = (swapL [a, b] 0 1, 1) := by
          unfold quicksort_partition
          rw [show ([a, b] : List T).length = 2 from rfl]
          rw [if_pos rfl]
          rw [show ([a, b] : List T).getD 1 default = b from rfl,
            show ([a, b] : List T).getD 0 default = a from rfl]
          rw [if_pos hc]
        rw [hq]
        rfl
      · exact List.Perm.swap a b []
      · intro x hx
        rw [List.mem_singleton.mp hx]
        exact hasym b a hc
    · refine ⟨[a], b, [], ?_, ?_, ?_, by simp, by simp⟩
      · have hq : quicksort_partition cmp [a, b] = ([a, b], 1) := by
          unfold quicksort_partition
          rw [show ([a, b] : List T).length = 2 from rfl]
          rw [if_pos rfl]
          rw [show ([a, b] : List T).getD 1 default = b from rfl,
            show ([a, b] : List T).getD 0 default = a from rfl]
          rw [if_neg hc]
        rw [hq]
        rfl
      · exact List.Perm.refl _
      · intro x hx
        rw [List.mem_singleton.mp hx]
        simpa using hc
  · have hn3 : 3 ≤ l.length := by omega
    have hpos : 0 < l.length := by omega
    have hlplen : (position_pivot cmp l).length = l.length :=
      length_position_pivot cmp l
    have hkle : l.length - 1 ≤ (position_pivot cmp l).length := by omega
    obtain ⟨A, B, heq, hperm, hA, hB⟩ :=
      lomuto_inv cmp ((position_pivot cmp l).getD (l.length - 1) default)
        (position_pivot cmp l) (l.length - 1) hkle
    have hqp : quicksort_partition cmp l =
        (swapL (A ++ (B ++ (position_pivot cmp l).drop (l.length - 1)))
          A.length (l.length - 1), A.length) := by
      unfold quicksort_partition
      rw [if_neg hn2]
      simp only []
      rw [heq]
    have hABlen : A.length + B.length = l.length - 1 := by
      have hlen := hperm.length_eq
      rw [List.length_append, List.length_take, Nat.min_eq_left hkle] at hlen
      exact hlen
    have hl1 : l.length - 1 < (position_pivot cmp l).length := by omega
    have hdrop1 : (position_pivot cmp l).drop (l.length - 1) =
        [(position_pivot cmp l).getD (l.length - 1) default] := by
      rw [drop_cons_getD (position_pivot cmp l) (l.length - 1) default hl1]
      rw [show l.length - 1 + 1 = (position_pivot cmp l).length by omega,
        List.drop_length]
    rw [hdrop1] at hqp
    have hlpperm : List.Perm (position_pivot cmp l) l := position_pivot_perm cmp l hpos
    have htakedrop : l.length - 1 ≤ (position_pivot cmp l).length := hkle
    have hlp_split : List.Perm
        (List.take (l.length - 1) (position_pivot cmp l) ++
          [(position_pivot cmp l).getD (l.length - 1) default]) l := by
      rw [← hdrop1, List.take_append_drop]
      exact hlpperm
    cases B with
    | nil =>
      have hAlen : A.length = l.length - 1 := by simpa using hABlen
      have hself : swapL (A ++ ([] ++ [(position_pivot cmp l).getD (l.length - 1) default]))
          A.length (l.length - 1)
          = A ++ ([] ++ [(position_pivot cmp l).getD (l.length - 1) default]) := by
        rw [hAlen]
        apply swapL_self
        simp only [List.length_append, List.nil_append, List.length_singleton]
        omega
      refine ⟨A, (position_pivot cmp l).getD (l.length - 1) default, [],
        ?_, ?_, ?_, by simp, by simp⟩
      · rw [hqp, hself]
        simp
      · have hap : List.Perm (A ++ [(position_pivot cmp l).getD (l.length - 1) default])
            (List.take (l.length - 1) (position_pivot cmp l) ++
              [(position_pivot cmp l).getD (l.length - 1) default]) :=
          (by simpa using hperm :
            List.Perm A (List.take (l.length - 1) (position_pivot cmp l))).append_right _
        exact hap.trans hlp_split
      · intro x hx
        exact hasym x _ (hA x hx)
    | cons b B' =>
      have hk2 : l.length - 1 = A.length + B'.length + 1 := by
        simp only [List.length_cons] at hABlen
        omega
      have hsw := swapL_append A b B'
        ((position_pivot cmp l).getD (l.length - 1) default) ([] : List T)
      rw [← hk2] at hsw
      refine ⟨A, (position_pivot cmp l).getD (l.length - 1) default, B' ++ [b],
        ?_, ?_, ?_, ?_, ?_⟩
      · rw [hqp]
        rw [show (b :: B') ++ [(position_pivot cmp l).getD (l.length - 1) default]
          = b :: (B' ++ ((position_pivot cmp l).getD (l.length - 1) default :: []))
          from rfl]
        rw [hsw]
      · have hmid : List.Perm
            (A ++ ((position_pivot cmp l).getD (l.length - 1) default :: (B' ++ [b])))
            (A ++ (b :: (B' ++ [(position_pivot cmp l).getD (l.length - 1) default]))) :=
          (perm_middle_swap _ b B').append_left A
        have hstep : List.Perm
            (A ++ (b :: (B' ++ [(position_pivot cmp l).getD (l.length - 1) default])))
            (List.take (l.length - 1) (position_pivot cmp l) ++
              [(position_pivot cmp l).getD (l.length - 1) default]) := by
          rw [show A ++ (b :: (B' ++ [(position_pivot cmp l).getD (l.length - 1) default]))
            = (A ++ (b :: B')) ++ [(position_pivot cmp l).getD (l.length - 1) default]
            by simp]
          exact hperm.append_right _
        exact (hmid.trans hstep).trans hlp_split
      · intro x hx
        exact hasym x _ (hA x hx)
      · intro y hy
        rcases List.mem_append.mp hy with h1 | h2
        · exact hB y (List.mem_cons_of_mem b h1)
        · rw [List.mem_singleton.mp h2]
          exact hB b (List.mem_cons_self b B')
      · intro x hx y hy
        cases hxy : cmp y x with
        | false => rfl
        | true =>
          exfalso
          have h1 := htrans y x _ hxy (hA x hx)
          have h2 : cmp y ((position_pivot cmp l).getD (l.length - 1) default) = false := by
            rcases List.mem_append.mp hy with hm1 | hm2
            · exact hB y (List.mem_cons_of_mem b hm1)
            · rw [List.mem_singleton.mp hm2]
              exact hB b (List.mem_cons_self b B')
          rw [h1] at h2
          exact absurd h2 (by simp)

/-! ## Quicksort: sortedness -/

theorem pairwise_of_length_le_one {T : Type} (R : T → T → Prop) (l : List T)
    (h : l.length ≤ 1) : List.Pairwise R l := by
  cases l with
  | nil => exact List.Pairwise.nil
  | cons x t =>
    cases t with
    | nil => simp
    | cons y t2 => simp at h

theorem quicksort_by_sorted_perm {T : Type} [Inhabited T] (cmp : T → T → Bool)
    (htrans : ∀ a b c, cmp a b = true → cmp b c = true → cmp a c = true)
    (hasym : ∀ a b, cmp a b = true → cmp b a = false) :
    ∀ (fuel : Nat) (l : List T), l.length ≤ fuel →
      List.Perm (quicksort_by cmp fuel l) l ∧
      List.Pairwise (fun a b => cmp b a = false) (quicksort_by cmp fuel l) := by
  intro fuel
  induction fuel with
  | zero =>
    intro l hl
    have hnil : l = [] := List.length_eq_zero.mp (Nat.le_zero.mp hl)
    subst hnil
    exact ⟨List.Perm.refl _, List.Pairwise.nil⟩
  | succ fuel ih =>
    intro l hl
    by_cases hlen : 1 < l.length
    · obtain ⟨P, piv, Q, hpart, hperm, hP, hQ, hPQ⟩ :=
        quicksort_partition_spec cmp htrans hasym l (by omega)
      have hq : quicksort_by cmp (fuel + 1) l =
          quicksort_by cmp fuel P ++ (piv :: quicksort_by cmp fuel Q) := by
        simp only [quicksort_by]
        rw [if_pos hlen, hpart]
        simp only []
        rw [List.take_left, getD_append_self, drop_append_cons]
      have hlentot : P.length + Q.length + 1 = l.length := by
        have := hperm.length_eq
        simpa [List.length_append, List.length_cons] using this
      have hPfuel : P.length ≤ fuel := by omega
      have hQfuel : Q.length ≤ fuel := by omega
      obtain ⟨ihPp, ihPs⟩ := ih P hPfuel
      obtain ⟨ihQp, ihQs⟩ := ih Q hQfuel
      constructor
      · rw [hq]
        exact (ihPp.append (ihQp.cons piv)).trans hperm
      · rw [hq]
        apply List.pairwise_append.mpr
        refine ⟨ihPs, ?_, ?_⟩
        · apply List.pairwise_cons.mpr
          refine ⟨?_, ihQs⟩
          intro y hy
          exact hQ y (ihQp.mem_iff.mp hy)
        · intro x hx y hy
          rcases List.mem_cons.mp hy with hp | hq'
          · rw [hp]
            exact hP x (ihPp.mem_iff.mp hx)
          · exact hPQ x (ihPp.mem_iff.mp hx) y (ihQp.mem_iff.mp hq')
    · have hle1 : l.length ≤ 1 := by omega
      have hid : quicksort_by cmp (fuel + 1) l = l := by
        simp only [quicksort_by]
        rw [if_neg hlen]
      rw [hid]
      exact ⟨List.Perm.refl _, pairwise_of_length_le_one _ _ hle1⟩

/-- C5 (amended): for every election state, the pair list left by
`tabulate` is sorted non-increasing by margin and is a permutation of the
pair list `build_pairs` produced — but equal-margin pairs need not retain
their build order (the quicksort is not stable, see the counterexample). -/
theorem tabulate_pairs_sorted (s : TGraph) :
    List.Pairwise (fun a b : TidemanPair => b.weight ≤ a.weight) (tabulate s).pairs ∧
    List.Perm (tabulate s).pairs
      (s.pairs ++ buildPairs s.nodes.length (margins s.nodes.length s.votes)) := by
  have htrans : ∀ a b c : TidemanPair,
      pairIsSmaller a b = true → pairIsSmaller b c = true →
        pairIsSmaller a c = true := by
    intro a b c h1 h2
    unfold pairIsSmaller at h1 h2 ⊢
    simp only [decide_eq_true_eq] at h1 h2 ⊢
    exact lt_trans h2 h1
  have hasym : ∀ a b : TidemanPair,
      pairIsSmaller a b = true → pairIsSmaller b a = false := by
    intro a b h
    unfold pairIsSmaller at h ⊢
    simp only [decide_eq_true_eq] at h
    simp only [decide_eq_false_iff_not]
    omega
  obtain ⟨hperm, hsort⟩ := quicksort_by_sorted_perm pairIsSmaller htrans hasym
    (s.pairs ++ buildPairs s.nodes.length (margins s.nodes.length s.votes)).length
    (s.pairs ++ buildPairs s.nodes.length (margins s.nodes.length s.votes))
    (Nat.le_refl _)
  have hpairs : (tabulate s).pairs = quicksort_by pairIsSmaller
      (s.pairs ++ buildPairs s.nodes.length (margins s.nodes.length s.votes)).length
      (s.pairs ++ buildPairs s.nodes.length (margins s.nodes.length s.votes)) := rfl
  constructor
  · rw [hpairs]
    refine hsort.imp ?_
    intro a b hab
    have hnot : ¬ (a.weight < b.weight) := by
      simpa [pairIsSmaller] using hab
    omega
  · rw [hpairs]
    exact hperm

end CS50
